import Mathlib

set_option linter.unusedVariables false

/-!
Verification of the binary-search-tree collection in `race.py`.

The tree nodes in the source are Python lists `[left, right, value]` or
`[left, right, value, sort_key]`; the sort key is read as `node[-1]`, so a
three-element node uses its value as its own sort key.  We embed a node as
an inductive constructor carrying both the value and the sort key plus a
Boolean `sep` recording whether the key is stored separately (list length 4);
`sep` only matters for `pprint`, which annotates exactly the length-4 nodes.
Values and sort keys are embedded as `Int`.
-/

namespace Race

/-- A tree node: either the empty node (the empty Python list) or a node
`[left, right, value(, sort_key)]`; `sep` records whether the sort key is
stored separately (the length-4 encoding). -/
inductive Tree where
  | empty : Tree
  | node (left right : Tree) (value : Int) (key : Int) (sep : Bool) : Tree
deriving DecidableEq

/-- The two child slots `_LEFT = 0` and `_RIGHT = 1`. -/
inductive Side where
  | left : Side
  | right : Side
deriving DecidableEq

/-- `node[side]` child access; the empty node has no children. -/
def Tree.child : Tree → Side → Tree
  | .empty, _ => .empty
  | .node l _ _ _ _, .left => l
  | .node _ r _ _ _, .right => r

/-- `node[_VALUE]`; the source never reads the value of an empty node, so the
empty case returns an arbitrary default. -/
def Tree.value : Tree → Int
  | .empty => 0
  | .node _ _ v _ _ => v

/-- `node[_SORT_KEY]`; default on the (never read) empty node. -/
def Tree.key : Tree → Int
  | .empty => 0
  | .node _ _ _ k _ => k

/-- Number of non-empty nodes in a tree. -/
def Tree.size : Tree → Nat
  | .empty => 0
  | .node l r _ _ _ => l.size + r.size + 1

/-- In-order list of `(value, sort_key)` pairs, used to state properties. -/
def inorder : Tree → List (Int × Int)
  | .empty => []
  | .node l r v k _ => inorder l ++ (v, k) :: inorder r

/-- The sort keys of a tree in in-order. -/
def keys (t : Tree) : List Int := (inorder t).map Prod.snd

/-- Boolean search-tree invariant: at every node, keys of the left subtree are
strictly smaller and keys of the right subtree are greater or equal (the
insertion descent goes left only on strict `<`). -/
def invB : Tree → Bool
  | .empty => true
  | .node l r _ k _ =>
    (keys l).all (fun x => decide (x < k)) &&
    (keys r).all (fun x => decide (k ≤ x)) && invB l && invB r

/-- The search-tree ordering invariant as a proposition. -/
def Inv (t : Tree) : Prop := invB t = true

instance (t : Tree) : Decidable (Inv t) :=
  inferInstanceAs (Decidable (invB t = true))

/-- The sort key of a value: `value` itself when no sort-key function is
configured, otherwise the function applied to the value. -/
def computeKey (sortKey : Option (Int → Int)) (v : Int) : Int :=
  match sortKey with
  | none => v
  | some f => f v

/-- The insertion descent of `insert`: go left on `sort_key < node[_SORT_KEY]`,
otherwise right, and materialize a fresh node in the first empty slot. -/
def insertTree (t : Tree) (v k : Int) (sep : Bool) : Tree :=
  match t with
  | .empty => .node .empty .empty v k sep
  | .node l r v' k' s' =>
    if k < k' then .node (insertTree l v k sep) r v' k' s'
    else .node l (insertTree r v k sep) v' k' s'

/-- The two error kinds of the source: `IndexError('Empty Binary Search
Tree!')` (the spec's `EmptyCollection`) and `KeyError` (`KeyNotFound`). -/
inductive Err where
  | emptyCollection : Err
  | keyNotFound : Err
deriving DecidableEq

/-- The `BinarySearchTree` object: `_root`, `_len` and the optional `_sort_key`
function fixed at construction. -/
structure BinarySearchTree where
  root : Tree
  len : Nat
  sortKey : Option (Int → Int)

/-- `BinarySearchTree(sort_key)`: a fresh empty tree. -/
def BinarySearchTree.new (sortKey : Option (Int → Int)) : BinarySearchTree :=
  ⟨.empty, 0, sortKey⟩

/-- `insert(value)`.  The source stores the compact length-3 node when
`sort_key is value`; with no key function the key IS the value, and with a
key function the freshly computed key is a distinct object whenever it
differs from the value — we model the identity test as key-equality under a
key function and as always-true without one. -/
def BinarySearchTree.insert (b : BinarySearchTree) (v : Int) : BinarySearchTree :=
  let k := computeKey b.sortKey v
  let sep : Bool :=
    match b.sortKey with
    | none => false
    | some _ => decide (k ≠ v)
  ⟨insertTree b.root v k sep, b.len + 1, b.sortKey⟩

/-- The `while node[side]: node = node[side]` descent of `_extreme_node`,
started on a non-empty node. -/
def extremeNodeAux : Tree → Side → Tree
  | .empty, _ => .empty
  | .node .empty r v k s, .left => .node .empty r v k s
  | .node (.node a b c d e) r v k s, .left =>
    extremeNodeAux (.node a b c d e) .left
  | .node l .empty v k s, .right => .node l .empty v k s
  | .node l (.node a b c d e) v k s, .right =>
    extremeNodeAux (.node a b c d e) .right

/-- `_extreme_node(side)`: raises on an empty root, otherwise walks down the
given side. -/
def extremeNode (t : Tree) (side : Side) : Except Err Tree :=
  match t with
  | .empty => .error .emptyCollection
  | n => .ok (extremeNodeAux n side)

/-- `_find(sort_key)`: the exact-key descent; `KeyError` at an empty slot. -/
def findAux : Tree → Int → Except Err Tree
  | .empty, _ => .error .keyNotFound
  | .node l r v k s, q =>
    if q < k then findAux l q
    else if q > k then findAux r q
    else .ok (.node l r v k s)

/-- `minimum()`: value of the leftmost node.  The second component is the
object state after the call (the method performs no mutation). -/
def BinarySearchTree.minimum (b : BinarySearchTree) :
    Except Err Int × BinarySearchTree :=
  match extremeNode b.root .left with
  | .error e => (.error e, b)
  | .ok n => (.ok n.value, b)

/-- `maximum()`: value of the rightmost node. -/
def BinarySearchTree.maximum (b : BinarySearchTree) :
    Except Err Int × BinarySearchTree :=
  match extremeNode b.root .right with
  | .error e => (.error e, b)
  | .ok n => (.ok n.value, b)

/-- `find(sort_key)`: value of the node located by `_find`. -/
def BinarySearchTree.find (b : BinarySearchTree) (q : Int) :
    Except Err Int × BinarySearchTree :=
  match findAux b.root q with
  | .error e => (.error e, b)
  | .ok n => (.ok n.value, b)

/-- `__len__`. -/
def BinarySearchTree.length (b : BinarySearchTree) : Nat × BinarySearchTree :=
  (b.len, b)

/-!
Deletion.  `race.py` only marks the spot of the node-removal helper
(`# Add pop-node here`, the `_pop_node` called by `pop`, `pop_min` and
`pop_max`); its body is absent from the source, so we model it from the
spec, §4.4.
-/

/-- Modelled from the spec: removal of the leftmost node of a subtree (the
node located by the `_LEFT` extreme descent).  That node has no left child,
so `remove` collapses it with its right child.  Returns the removed node's
`(value, key, sep)` fields and the remaining subtree; `none` on the empty
tree. -/
def popLeftmost : Tree → Option ((Int × Int × Bool) × Tree)
  | .empty => none
  | .node .empty r v k s => some ((v, k, s), r)
  | .node (.node a b c d e) r v k s =>
    match popLeftmost (.node a b c d e) with
    | some (x, l') => some (x, .node l' r v k s)
    | none => none

/-- Modelled from the spec: removal of the rightmost node of a subtree (the
node located by the `_RIGHT` extreme descent), collapsed with its left
child. -/
def popRightmost : Tree → Option ((Int × Int × Bool) × Tree)
  | .empty => none
  | .node l .empty v k s => some ((v, k, s), l)
  | .node l (.node a b c d e) v k s =>
    match popRightmost (.node a b c d e) with
    | some (x, r') => some (x, .node l r' v k s)
    | none => none

/-- Modelled from the spec: `remove(n)` of §4.4, for a node with children `l`
and `r`.  No left child: collapse with the right child.  No right child:
collapse with the left child.  Two children: copy the in-order successor
(the leftmost node of `r`) into the node and remove it from `r`. -/
def removeNode (l r : Tree) : Tree :=
  match l with
  | .empty => r
  | _ =>
    match r with
    | .empty => l
    | _ =>
      match popLeftmost r with
      | some ((sv, sk, ss), r') => .node l r' sv sk ss
      | none => .empty

/-- Modelled from the spec: `pop(sort_key)` locates the target node with the
`_find` descent and removes it per §4.4, rebuilding the descent path.
Returns the removed value and the new tree, or `none` when the key is
absent. -/
def popFind : Tree → Int → Option (Int × Tree)
  | .empty, _ => none
  | .node l r v k s, q =>
    if q < k then
      match popFind l q with
      | some (res, l') => some (res, .node l' r v k s)
      | none => none
    else if q > k then
      match popFind r q with
      | some (res, r') => some (res, .node l r' v k s)
      | none => none
    else
      some (v, removeNode l r)

/-- Modelled from the spec: `pop(sort_key)` = `_pop_node(_find(sort_key))`;
on success the count is decremented. -/
def BinarySearchTree.pop (b : BinarySearchTree) (q : Int) :
    Except Err Int × BinarySearchTree :=
  match popFind b.root q with
  | none => (.error .keyNotFound, b)
  | some (v, t') => (.ok v, ⟨t', b.len - 1, b.sortKey⟩)

/-- Modelled from the spec: `pop_min()` = `_pop_node(_extreme_node(_LEFT))`;
raises `EmptyCollection` on the empty tree (inside `_extreme_node`, before
any mutation). -/
def BinarySearchTree.pop_min (b : BinarySearchTree) :
    Except Err Int × BinarySearchTree :=
  match popLeftmost b.root with
  | none => (.error .emptyCollection, b)
  | some ((v, _, _), t') => (.ok v, ⟨t', b.len - 1, b.sortKey⟩)

/-- Modelled from the spec: `pop_max()` = `_pop_node(_extreme_node(_RIGHT))`. -/
def BinarySearchTree.pop_max (b : BinarySearchTree) :
    Except Err Int × BinarySearchTree :=
  match popRightmost b.root with
  | none => (.error .emptyCollection, b)
  | some ((v, _, _), t') => (.ok v, ⟨t', b.len - 1, b.sortKey⟩)

/-!
Traversal.  `_iter(pre, post)` is the explicit-stack in-order generator; its
only call sites are `values(False)` = `_iter(_LEFT, _RIGHT)` and
`values(True)` = `_iter(_RIGHT, _LEFT)`, which we index by the Boolean
`reverse` argument of `values`.
-/

/-- The "pre" side of the traversal: `_RIGHT` for the reverse iterator,
`_LEFT` for the forward one. -/
def preChild (rev : Bool) (t : Tree) : Tree :=
  if rev then t.child .right else t.child .left

/-- The "post" side of the traversal. -/
def postChild (rev : Bool) (t : Tree) : Tree :=
  if rev then t.child .left else t.child .right

/-- The `while stack or node` loop of `_iter`: descend pushing nodes on the
pre side, and at an empty slot pop, yield the popped value, and continue on
the popped node's post side.  Returns the full list of yielded values. -/
def iterLoop (rev : Bool) : List Tree → Tree → List Int
  | stack, .node l r v k s =>
    iterLoop rev (Tree.node l r v k s :: stack)
      (preChild rev (Tree.node l r v k s))
  | [], .empty => []
  | n :: rest, .empty => n.value :: iterLoop rev rest (postChild rev n)
termination_by stack node =>
  2 * node.size + (stack.map fun n => 2 * (postChild rev n).size + 1).sum
decreasing_by
  · cases rev <;>
      simp [preChild, postChild, Tree.child, Tree.size, List.map_cons,
        List.sum_cons] <;> omega
  · simp [List.map_cons, List.sum_cons]
    omega

/-- `values(reverse)`: the list of values the generator yields, together
with the (unmutated) object state. -/
def BinarySearchTree.values (b : BinarySearchTree) (reverse : Bool) :
    List Int × BinarySearchTree :=
  (iterLoop reverse [] b.root, b)

/-!
Pretty-printing.  `_pprint` builds a `(top_lines, mid_line, bot_lines)`
triple; `pprint` joins them, optionally inside a frame.  The source checks
`len(node) > 3` (our `sep` flag) to decide the key annotation — the
`show_key` argument is threaded through the recursion but never read.
-/

/-- Python `' ' * n` (and the other fill repetitions). -/
def charRepeat (c : Char) (n : Nat) : String :=
  String.mk (List.replicate n c)

/-- Python `s.rjust(w, c)`. -/
def rjust (s : String) (w : Nat) (c : Char) : String :=
  charRepeat c (w - s.length) ++ s

/-- Python `s.ljust(w, c)`. -/
def ljust (s : String) (w : Nat) (c : Char) : String :=
  s ++ charRepeat c (w - s.length)

/-- `_pprint(node, max_depth, show_key)` with the constant `spacer=2`:
returns the `(top_lines, mid_line, bot_lines)` triple.  The mid line is
`-%r` of the value, plus ` (key=%r)` exactly when the node stores a
separate key (`len(node) > 3`); `show_key` is accepted but, as in the
source, never consulted. -/
def pprintAux (node : Tree) (maxDepth : Nat) (showKey : Bool) :
    List String × String × List String :=
  match maxDepth with
  | 0 => ([], "- ...", [])
  | d + 1 =>
    match node with
    | .empty => ([], "- EMPTY", [])
    | .node l r v k sep =>
      let mid : String :=
        (if sep then "-" ++ toString v ++ " (key=" ++ toString k ++ ")"
         else "-" ++ toString v)
      let topLines : List String :=
        match l with
        | .empty => []
        | _ =>
          let (t, m, bo) := pprintAux l d showKey
          let indent := charRepeat ' ' (bo.length + 2)
          (t.map fun line => indent ++ " " ++ line) ++
          [indent ++ "/" ++ m] ++
          (bo.enum.map fun p =>
            charRepeat ' ' (bo.length - p.1 + 1) ++ "/" ++
            charRepeat ' ' (p.1 + 1) ++ p.2)
      let botLines : List String :=
        match r with
        | .empty => []
        | _ =>
          let (t, m, bo) := pprintAux r d showKey
          let indent := charRepeat ' ' (t.length + 2)
          (t.enum.map fun p =>
            charRepeat ' ' (p.1 + 2) ++ "\\" ++
            charRepeat ' ' (t.length - p.1) ++ p.2) ++
          [indent ++ "\\" ++ m] ++
          (bo.map fun line => indent ++ " " ++ line)
      (topLines, mid, botLines)

/-- `pprint(max_depth, frame, show_key)`: the rendered text together with the
(unmutated) object state. -/
def BinarySearchTree.pprint (b : BinarySearchTree) (maxDepth : Nat)
    (frame : Bool) (showKey : Bool) : String × BinarySearchTree :=
  let (t, m, bo) := pprintAux b.root maxDepth showKey
  let lines := t ++ [m] ++ bo
  if frame then
    let width := max 40 (((lines.map String.length).foldl max 0))
    let s := "+-" ++ rjust "MIN" width '-' ++ "-+\n" ++
      String.join (lines.map fun line => "| " ++ ljust line width ' ' ++ " |\n") ++
      "+-" ++ rjust "MAX" width '-' ++ "-+\n"
    (s, b)
  else
    (String.intercalate "\n" lines, b)

/-!
Reachable object states: a fresh tree, and anything produced from a
reachable state by the mutating operations.  The read-only operations
return the state unchanged, and a failing `pop` variant also returns the
state unchanged, so these constructors cover every reachable state.
-/

/-- States reachable from `BinarySearchTree(sort_key)` by public operations. -/
inductive Reachable : BinarySearchTree → Prop where
  | new (sortKey : Option (Int → Int)) :
      Reachable (BinarySearchTree.new sortKey)
  | insertStep {b : BinarySearchTree} (h : Reachable b) (v : Int) :
      Reachable (b.insert v)
  | popStep {b b' : BinarySearchTree} {q : Int} {r : Except Err Int}
      (h : Reachable b) (e : b.pop q = (r, b')) : Reachable b'
  | popMinStep {b b' : BinarySearchTree} {r : Except Err Int}
      (h : Reachable b) (e : b.pop_min = (r, b')) : Reachable b'
  | popMaxStep {b b' : BinarySearchTree} {r : Except Err Int}
      (h : Reachable b) (e : b.pop_max = (r, b')) : Reachable b'

/-!
Basic lemmas about the invariant and the in-order list.
-/

theorem size_eq_length_inorder (t : Tree) : t.size = (inorder t).length := by
  induction t with
  | empty => rfl
  | node l r v k s ihl ihr => simp [Tree.size, inorder, ihl, ihr]; omega

theorem keys_node {l r : Tree} {v k : Int} {s : Bool} :
    keys (Tree.node l r v k s) = keys l ++ k :: keys r := by
  simp [keys, inorder]

theorem inv_empty : Inv Tree.empty := rfl

theorem inv_node {l r : Tree} {v k : Int} {s : Bool} :
    Inv (Tree.node l r v k s) ↔
      (∀ x ∈ keys l, x < k) ∧ (∀ x ∈ keys r, k ≤ x) ∧ Inv l ∧ Inv r := by
  simp [Inv, invB, List.all_eq_true, and_assoc]

theorem sorted_keys {t : Tree} (h : Inv t) :
    List.Pairwise (· ≤ ·) (keys t) := by
  induction t with
  | empty => simp [keys, inorder]
  | node l r v k s ihl ihr =>
    rw [inv_node] at h
    obtain ⟨hl, hr, hil, hir⟩ := h
    rw [keys_node]
    refine List.pairwise_append.2 ⟨ihl hil, ?_, ?_⟩
    · exact List.pairwise_cons.2 ⟨hr, ihr hir⟩
    · intro a ha b hb
      rcases List.mem_cons.1 hb with rfl | hb
      · exact le_of_lt (hl a ha)
      · exact le_of_lt (lt_of_lt_of_le (hl a ha) (hr b hb))

/-!
Insertion lemmas.
-/

theorem inorder_insertTree_perm (t : Tree) (v k : Int) (s : Bool) :
    (inorder (insertTree t v k s)).Perm ((v, k) :: inorder t) := by
  induction t with
  | empty => simp [insertTree, inorder]
  | node l r v' k' s' ihl ihr =>
    by_cases hk : k < k'
    · simp only [insertTree, if_pos hk, inorder]
      exact ihl.append_right _
    · simp only [insertTree, if_neg hk, inorder]
      exact (((ihr.cons (v', k')).trans
        (List.Perm.swap (v, k) (v', k') _)).append_left
          (inorder l)).trans List.perm_middle

theorem size_insertTree (t : Tree) (v k : Int) (s : Bool) :
    (insertTree t v k s).size = t.size + 1 := by
  have h := (inorder_insertTree_perm t v k s).length_eq
  simp only [List.length_cons] at h
  rw [size_eq_length_inorder, size_eq_length_inorder, h]

theorem mem_keys_insertTree {t : Tree} {v k : Int} {s : Bool} {x : Int}
    (h : x ∈ keys (insertTree t v k s)) : x = k ∨ x ∈ keys t := by
  have hp := (inorder_insertTree_perm t v k s).map Prod.snd
  have : x ∈ ((v, k) :: inorder t).map Prod.snd := hp.mem_iff.1 h
  simpa [keys] using this

theorem inv_insertTree {t : Tree} (v k : Int) (s : Bool) (h : Inv t) :
    Inv (insertTree t v k s) := by
  induction t with
  | empty =>
    simp [insertTree, inv_node, keys, inorder, inv_empty]
  | node l r v' k' s' ihl ihr =>
    rw [inv_node] at h
    obtain ⟨hl, hr, hil, hir⟩ := h
    by_cases hk : k < k'
    · simp only [insertTree, if_pos hk]
      rw [inv_node]
      refine ⟨?_, hr, ihl hil, hir⟩
      intro x hx
      rcases mem_keys_insertTree hx with rfl | hx
      · exact hk
      · exact hl x hx
    · simp only [insertTree, if_neg hk]
      rw [inv_node]
      refine ⟨hl, ?_, hil, ihr hir⟩
      intro x hx
      rcases mem_keys_insertTree hx with rfl | hx
      · exact le_of_not_lt hk
      · exact hr x hx

/-!
Lemmas about the modelled deletion helpers.
-/

theorem popLeftmost_eq_none_iff {t : Tree} :
    popLeftmost t = none ↔ t = .empty := by
  induction t with
  | empty => simp [popLeftmost]
  | node l r v k s ihl ihr =>
    cases l with
    | empty => simp [popLeftmost]
    | node a b c d e =>
      simp only [popLeftmost]
      cases hpl : popLeftmost (.node a b c d e) with
      | none => exact absurd (ihl.1 hpl) (by simp)
      | some pr => simp

theorem popLeftmost_inorder {t t' : Tree} {v k : Int} {s : Bool}
    (h : popLeftmost t = some ((v, k, s), t')) :
    inorder t = (v, k) :: inorder t' := by
  induction t generalizing t' with
  | empty => simp [popLeftmost] at h
  | node l r v' k' s' ihl ihr =>
    cases l with
    | empty =>
      simp only [popLeftmost, Option.some.injEq, Prod.mk.injEq] at h
      obtain ⟨⟨rfl, rfl, rfl⟩, rfl⟩ := h
      simp [inorder]
    | node a b c d e =>
      simp only [popLeftmost] at h
      cases hpl : popLeftmost (.node a b c d e) with
      | none => rw [hpl] at h; exact absurd h (by simp)
      | some pr =>
        obtain ⟨⟨v0, k0, s0⟩, l'⟩ := pr
        rw [hpl] at h
        simp only [Option.some.injEq, Prod.mk.injEq] at h
        obtain ⟨⟨rfl, rfl, rfl⟩, rfl⟩ := h
        show inorder (Tree.node a b c d e) ++ (v', k') :: inorder r =
          (v0, k0) :: inorder (Tree.node l' r v' k' s')
        rw [ihl hpl]
        rfl

theorem popLeftmost_inv {t t' : Tree} {x : Int × Int × Bool}
    (hInv : Inv t) (h : popLeftmost t = some (x, t')) : Inv t' := by
  induction t generalizing t' with
  | empty => simp [popLeftmost] at h
  | node l r v' k' s' ihl ihr =>
    rw [inv_node] at hInv
    obtain ⟨hl, hr, hil, hir⟩ := hInv
    cases l with
    | empty =>
      simp only [popLeftmost, Option.some.injEq, Prod.mk.injEq] at h
      exact h.2 ▸ hir
    | node a b c d e =>
      simp only [popLeftmost] at h
      cases hpl : popLeftmost (.node a b c d e) with
      | none => rw [hpl] at h; exact absurd h (by simp)
      | some pr =>
        obtain ⟨⟨v0, k0, s0⟩, l'⟩ := pr
        rw [hpl] at h
        simp only [Option.some.injEq, Prod.mk.injEq] at h
        obtain ⟨rfl, rfl⟩ := h
        have hkeys : keys (Tree.node a b c d e) = k0 :: keys l' := by
          simp [keys, popLeftmost_inorder hpl]
        rw [inv_node]
        refine ⟨?_, hr, ihl hil hpl, hir⟩
        intro y hy
        exact hl y (by rw [hkeys]; exact List.mem_cons_of_mem _ hy)

theorem popRightmost_eq_none_iff {t : Tree} :
    popRightmost t = none ↔ t = .empty := by
  induction t with
  | empty => simp [popRightmost]
  | node l r v k s ihl ihr =>
    cases r with
    | empty => simp [popRightmost]
    | node a b c d e =>
      simp only [popRightmost]
      cases hpr : popRightmost (.node a b c d e) with
      | none => exact absurd (ihr.1 hpr) (by simp)
      | some pr => simp

theorem popRightmost_inorder {t t' : Tree} {v k : Int} {s : Bool}
    (h : popRightmost t = some ((v, k, s), t')) :
    inorder t = inorder t' ++ [(v, k)] := by
  induction t generalizing t' with
  | empty => simp [popRightmost] at h
  | node l r v' k' s' ihl ihr =>
    cases r with
    | empty =>
      simp only [popRightmost, Option.some.injEq, Prod.mk.injEq] at h
      obtain ⟨⟨rfl, rfl, rfl⟩, rfl⟩ := h
      simp [inorder]
    | node a b c d e =>
      simp only [popRightmost] at h
      cases hpr : popRightmost (.node a b c d e) with
      | none => rw [hpr] at h; exact absurd h (by simp)
      | some pr =>
        obtain ⟨⟨v0, k0, s0⟩, r'⟩ := pr
        rw [hpr] at h
        simp only [Option.some.injEq, Prod.mk.injEq] at h
        obtain ⟨⟨rfl, rfl, rfl⟩, rfl⟩ := h
        show inorder l ++ (v', k') :: inorder (Tree.node a b c d e) =
          inorder (Tree.node l r' v' k' s') ++ [(v0, k0)]
        rw [ihr hpr]
        show inorder l ++ (v', k') :: (inorder r' ++ [(v0, k0)]) =
          (inorder l ++ (v', k') :: inorder r') ++ [(v0, k0)]
        simp

theorem popRightmost_inv {t t' : Tree} {x : Int × Int × Bool}
    (hInv : Inv t) (h : popRightmost t = some (x, t')) : Inv t' := by
  induction t generalizing t' with
  | empty => simp [popRightmost] at h
  | node l r v' k' s' ihl ihr =>
    rw [inv_node] at hInv
    obtain ⟨hl, hr, hil, hir⟩ := hInv
    cases r with
    | empty =>
      simp only [popRightmost, Option.some.injEq, Prod.mk.injEq] at h
      exact h.2 ▸ hil
    | node a b c d e =>
      simp only [popRightmost] at h
      cases hpr : popRightmost (.node a b c d e) with
      | none => rw [hpr] at h; exact absurd h (by simp)
      | some pr =>
        obtain ⟨⟨v0, k0, s0⟩, r'⟩ := pr
        rw [hpr] at h
        simp only [Option.some.injEq, Prod.mk.injEq] at h
        obtain ⟨rfl, rfl⟩ := h
        have hkeys : keys (Tree.node a b c d e) = keys r' ++ [k0] := by
          simp [keys, popRightmost_inorder hpr]
        rw [inv_node]
        refine ⟨hl, ?_, hil, ihr hir hpr⟩
        intro y hy
        exact hr y (by rw [hkeys]; exact List.mem_append_left _ hy)


/-- Keys of a tree obtained by dropping one in-order element are keys of the
original tree. -/
theorem mem_keys_of_decomp {l1 l2 : List (Int × Int)} {p : Int × Int}
    {t t' : Tree} (e1 : inorder t = l1 ++ p :: l2) (e2 : inorder t' = l1 ++ l2)
    {y : Int} (hy : y ∈ keys t') : y ∈ keys t := by
  simp only [keys, e1, e2, List.map_append, List.map_cons, List.mem_append,
    List.mem_cons] at hy ⊢
  tauto

theorem size_of_decomp {t t' : Tree} {l1 l2 : List (Int × Int)} {p : Int × Int}
    (e1 : inorder t = l1 ++ p :: l2) (e2 : inorder t' = l1 ++ l2) :
    t.size = t'.size + 1 := by
  rw [size_eq_length_inorder, size_eq_length_inorder, e1, e2]
  simp [List.length_append]
  omega

theorem popFind_eq_none_of_not_mem {t : Tree} {q : Int} (h : q ∉ keys t) :
    popFind t q = none := by
  induction t with
  | empty => rfl
  | node l r v k s ihl ihr =>
    rw [keys_node] at h
    simp only [List.mem_append, List.mem_cons, not_or] at h
    obtain ⟨hnl, hnk, hnr⟩ := h
    by_cases h1 : q < k
    · simp [popFind, if_pos h1, ihl hnl]
    · by_cases h2 : q > k
      · simp [popFind, if_neg h1, if_pos h2, ihr hnr]
      · exact absurd (le_antisymm (not_lt.1 h2) (not_lt.1 h1)) hnk

theorem popFind_ne_none_of_mem {t : Tree} {q : Int} (hInv : Inv t)
    (h : q ∈ keys t) : popFind t q ≠ none := by
  induction t with
  | empty => simp [keys, inorder] at h
  | node l r v k s ihl ihr =>
    rw [inv_node] at hInv
    obtain ⟨hl, hr, hil, hir⟩ := hInv
    rw [keys_node] at h
    by_cases h1 : q < k
    · have hql : q ∈ keys l := by
        rcases List.mem_append.1 h with hq | hq
        · exact hq
        · rcases List.mem_cons.1 hq with rfl | hq
          · exact absurd h1 (lt_irrefl q)
          · exact absurd (hr q hq) (not_le.2 h1)
      simp only [popFind, if_pos h1]
      cases hpf : popFind l q with
      | none => exact absurd hpf (ihl hil hql)
      | some pr => simp
    · by_cases h2 : q > k
      · have hqr : q ∈ keys r := by
          rcases List.mem_append.1 h with hq | hq
          · exact absurd (hl q hq) (not_lt.2 (le_of_lt h2))
          · rcases List.mem_cons.1 hq with rfl | hq
            · exact absurd h2 (lt_irrefl q)
            · exact hq
        simp only [popFind, if_neg h1, if_pos h2]
        cases hpf : popFind r q with
        | none => exact absurd hpf (ihr hir hqr)
        | some pr => simp
      · simp [popFind, if_neg h1, if_neg h2]

theorem popFind_some {t : Tree} {q vres : Int} {t' : Tree}
    (hInv : Inv t) (h : popFind t q = some (vres, t')) :
    (∃ l1 l2, inorder t = l1 ++ (vres, q) :: l2 ∧ inorder t' = l1 ++ l2)
      ∧ Inv t' := by
  induction t generalizing t' with
  | empty => simp [popFind] at h
  | node l r v k s ihl ihr =>
    rw [inv_node] at hInv
    obtain ⟨hl, hr, hil, hir⟩ := hInv
    by_cases h1 : q < k
    · simp only [popFind, if_pos h1] at h
      cases hpf : popFind l q with
      | none => rw [hpf] at h; exact absurd h (by simp)
      | some pr =>
        obtain ⟨res, l'⟩ := pr
        rw [hpf] at h
        simp only [Option.some.injEq, Prod.mk.injEq] at h
        obtain ⟨rfl, rfl⟩ := h
        obtain ⟨⟨l1, l2, e1, e2⟩, hinvl'⟩ := ihl hil hpf
        constructor
        · refine ⟨l1, l2 ++ (v, k) :: inorder r, ?_, ?_⟩
          · show inorder l ++ (v, k) :: inorder r = _
            rw [e1]; simp
          · show inorder l' ++ (v, k) :: inorder r = _
            rw [e2]; simp
        · rw [inv_node]
          refine ⟨?_, hr, hinvl', hir⟩
          intro y hy
          exact hl y (mem_keys_of_decomp e1 e2 hy)
    · by_cases h2 : q > k
      · simp only [popFind, if_neg h1, if_pos h2] at h
        cases hpf : popFind r q with
        | none => rw [hpf] at h; exact absurd h (by simp)
        | some pr =>
          obtain ⟨res, r'⟩ := pr
          rw [hpf] at h
          simp only [Option.some.injEq, Prod.mk.injEq] at h
          obtain ⟨rfl, rfl⟩ := h
          obtain ⟨⟨l1, l2, e1, e2⟩, hinvr'⟩ := ihr hir hpf
          constructor
          · refine ⟨inorder l ++ (v, k) :: l1, l2, ?_, ?_⟩
            · show inorder l ++ (v, k) :: inorder r = _
              rw [e1]; simp
            · show inorder l ++ (v, k) :: inorder r' = _
              rw [e2]; simp
          · rw [inv_node]
            refine ⟨hl, ?_, hil, hinvr'⟩
            intro y hy
            exact hr y (mem_keys_of_decomp e1 e2 hy)
      · have hqk : q = k := le_antisymm (not_lt.1 h2) (not_lt.1 h1)
        subst hqk
        simp only [popFind, if_neg h1, if_neg h2, Option.some.injEq,
          Prod.mk.injEq] at h
        obtain ⟨rfl, rfl⟩ := h
        cases l with
        | empty =>
          refine ⟨⟨[], inorder r, ?_, ?_⟩, hir⟩
          · simp [inorder]
          · simp [removeNode]
        | node la lb lc ld le =>
          cases r with
          | empty =>
            refine ⟨⟨inorder (Tree.node la lb lc ld le), [], ?_, ?_⟩, hil⟩
            · simp [inorder]
            · simp [removeNode]
          | node ra rb rc rd re =>
            cases hpl : popLeftmost (Tree.node ra rb rc rd re) with
            | none =>
              exact absurd (popLeftmost_eq_none_iff.1 hpl) (by simp)
            | some pr =>
              obtain ⟨⟨sv, sk, ss⟩, r'⟩ := pr
              have ht' : removeNode (Tree.node la lb lc ld le)
                  (Tree.node ra rb rc rd re) =
                  Tree.node (Tree.node la lb lc ld le) r' sv sk ss := by
                simp [removeNode, hpl]
              have hio := popLeftmost_inorder hpl
              have hkeysr : keys (Tree.node ra rb rc rd re) = sk :: keys r' := by
                simp [keys, hio]
              rw [ht']
              constructor
              · refine ⟨inorder (Tree.node la lb lc ld le),
                  (sv, sk) :: inorder r', ?_, ?_⟩
                · show inorder (Tree.node la lb lc ld le) ++
                    (v, q) :: inorder (Tree.node ra rb rc rd re) = _
                  rw [hio]
                · rfl
              · rw [inv_node]
                have hksk : q ≤ sk := hr sk (by rw [hkeysr]; exact List.mem_cons_self _ _)
                refine ⟨?_, ?_, hil, popLeftmost_inv hir hpl⟩
                · intro y hy
                  exact lt_of_lt_of_le (hl y hy) hksk
                · have hs := sorted_keys hir
                  rw [hkeysr] at hs
                  exact (List.pairwise_cons.1 hs).1


/-!
Traversal lemmas: the explicit-stack loop of `_iter` produces the in-order
value sequence (reversed for the reverse iterator).
-/

/-- The value sequence a `(pre, post)` traversal emits for one subtree. -/
def outSeq (rev : Bool) (t : Tree) : List Int :=
  if rev then ((inorder t).map Prod.fst).reverse else (inorder t).map Prod.fst

/-- The values still owed to the nodes saved on the traversal stack. -/
def stackSeq (rev : Bool) : List Tree → List Int
  | [] => []
  | n :: rest => n.value :: (outSeq rev (postChild rev n) ++ stackSeq rev rest)

theorem outSeq_node (rev : Bool) (l r : Tree) (v k : Int) (s : Bool) :
    outSeq rev (Tree.node l r v k s) =
      outSeq rev (preChild rev (Tree.node l r v k s)) ++
        v :: outSeq rev (postChild rev (Tree.node l r v k s)) := by
  cases rev <;>
    simp [outSeq, preChild, postChild, Tree.child, inorder]

theorem iterLoop_eq (rev : Bool) (stack : List Tree) (node : Tree) :
    iterLoop rev stack node = outSeq rev node ++ stackSeq rev stack := by
  induction stack, node using iterLoop.induct rev with
  | case1 stack l r v k s ih =>
    rw [iterLoop, ih, outSeq_node]
    simp [stackSeq, Tree.value]
  | case2 => simp [iterLoop, outSeq, stackSeq, inorder]
  | case3 n rest ih =>
    rw [iterLoop, ih]
    simp [stackSeq, outSeq, inorder]

theorem values_fst (b : BinarySearchTree) (rev : Bool) :
    (b.values rev).1 = outSeq rev b.root := by
  simp [BinarySearchTree.values, iterLoop_eq, stackSeq]

/-!
Extreme-node lemmas: the leftmost value is the head of the in-order value
list and the rightmost value is its last element.
-/

theorem inorder_eq_nil_iff {t : Tree} : inorder t = [] ↔ t = .empty := by
  cases t <;> simp [inorder]

theorem head_inorder {t : Tree} (h : t ≠ .empty) :
    ((inorder t).map Prod.fst).head? = some (extremeNodeAux t .left).value := by
  induction t with
  | empty => exact absurd rfl h
  | node l r v k s ihl ihr =>
    cases l with
    | empty => simp [inorder, extremeNodeAux, Tree.value]
    | node a b c d e =>
      have hne : (Tree.node a b c d e) ≠ Tree.empty := by simp
      have hni : (inorder (Tree.node a b c d e)).map Prod.fst ≠ [] := by
        simp [inorder]
      have hea : extremeNodeAux ((Tree.node a b c d e).node r v k s) Side.left
          = extremeNodeAux (Tree.node a b c d e) Side.left := by
        simp [extremeNodeAux]
      rw [hea, show inorder ((Tree.node a b c d e).node r v k s)
          = inorder (Tree.node a b c d e) ++ (v, k) :: inorder r from rfl,
        List.map_append, List.head?_append_of_ne_nil _ hni]
      exact ihl hne

theorem getLast_inorder {t : Tree} (h : t ≠ .empty) :
    ((inorder t).map Prod.fst).getLast? =
      some (extremeNodeAux t .right).value := by
  induction t with
  | empty => exact absurd rfl h
  | node l r v k s ihl ihr =>
    cases r with
    | empty =>
      have hea : extremeNodeAux (l.node Tree.empty v k s) Side.right
          = l.node Tree.empty v k s := by
        simp [extremeNodeAux]
      rw [hea, show inorder (l.node Tree.empty v k s)
          = inorder l ++ [(v, k)] from rfl]
      simp [Tree.value]
    | node a b c d e =>
      have hne : (Tree.node a b c d e) ≠ Tree.empty := by simp
      have hni2 : (inorder (Tree.node a b c d e)).map Prod.fst ≠ [] := by
        simp [inorder]
      have hni : ((v, k) :: inorder (Tree.node a b c d e)).map Prod.fst ≠ [] := by
        simp
      have hea : extremeNodeAux (l.node (Tree.node a b c d e) v k s) Side.right
          = extremeNodeAux (Tree.node a b c d e) Side.right := by
        simp [extremeNodeAux]
      rw [hea, show inorder (l.node (Tree.node a b c d e) v k s)
          = inorder l ++ (v, k) :: inorder (Tree.node a b c d e) from rfl,
        List.map_append, List.getLast?_append_of_ne_nil _ hni, List.map_cons]
      cases hmi : (inorder (Tree.node a b c d e)).map Prod.fst with
      | nil => exact absurd hmi hni2
      | cons x xs =>
        rw [List.getLast?_cons_cons]
        rw [← hmi, ihr hne]

/-!
`_find` on a present key.
-/

theorem findAux_present {t : Tree} {q : Int} (hInv : Inv t) (hq : q ∈ keys t) :
    ∃ n : Tree, findAux t q = .ok n ∧ n.key = q ∧ (n.value, q) ∈ inorder t := by
  induction t with
  | empty => simp [keys, inorder] at hq
  | node l r v k s ihl ihr =>
    rw [inv_node] at hInv
    obtain ⟨hl, hr, hil, hir⟩ := hInv
    rw [keys_node] at hq
    by_cases h1 : q < k
    · have hql : q ∈ keys l := by
        rcases List.mem_append.1 hq with hm | hm
        · exact hm
        · rcases List.mem_cons.1 hm with rfl | hm
          · exact absurd h1 (lt_irrefl q)
          · exact absurd (hr q hm) (not_le.2 h1)
      obtain ⟨n, e, hk, hm⟩ := ihl hil hql
      refine ⟨n, by simp [findAux, if_pos h1, e], hk, ?_⟩
      show (n.value, q) ∈ inorder l ++ (v, k) :: inorder r
      exact List.mem_append_left _ hm
    · by_cases h2 : q > k
      · have hqr : q ∈ keys r := by
          rcases List.mem_append.1 hq with hm | hm
          · exact absurd (hl q hm) (not_lt.2 (le_of_lt h2))
          · rcases List.mem_cons.1 hm with rfl | hm
            · exact absurd h2 (lt_irrefl q)
            · exact hm
        obtain ⟨n, e, hk, hm⟩ := ihr hir hqr
        refine ⟨n, by simp [findAux, if_neg h1, if_pos h2, e], hk, ?_⟩
        show (n.value, q) ∈ inorder l ++ (v, k) :: inorder r
        exact List.mem_append_right _ (List.mem_cons_of_mem _ hm)
      · have hqk : q = k := le_antisymm (not_lt.1 h2) (not_lt.1 h1)
        subst hqk
        refine ⟨Tree.node l r v q s, by simp [findAux, if_neg h1, if_neg h2],
          rfl, ?_⟩
        show (v, q) ∈ inorder l ++ (v, q) :: inorder r
        exact List.mem_append_right _ (List.mem_cons_self _ _)

/-!
Every reachable object state satisfies the ordering invariant and keeps
`_len` equal to the number of nodes.
-/

theorem reachable_spec {b : BinarySearchTree} (h : Reachable b) :
    Inv b.root ∧ b.len = b.root.size := by
  induction h with
  | new sortKey => exact ⟨inv_empty, rfl⟩
  | insertStep h v ih =>
    obtain ⟨hi, hlen⟩ := ih
    exact ⟨inv_insertTree _ _ _ hi,
      by simp [BinarySearchTree.insert, size_insertTree, hlen]⟩
  | popStep h e ih =>
    obtain ⟨hi, hlen⟩ := ih
    rename_i b0 b' q r
    unfold BinarySearchTree.pop at e
    cases hpf : popFind b0.root q with
    | none =>
      rw [hpf] at e
      simp only [Prod.mk.injEq] at e
      exact e.2 ▸ ⟨hi, hlen⟩
    | some pr =>
      obtain ⟨v, t'⟩ := pr
      rw [hpf] at e
      simp only [Prod.mk.injEq] at e
      obtain ⟨⟨l1, l2, e1, e2⟩, hinv⟩ := popFind_some hi hpf
      have hsz := size_of_decomp e1 e2
      rw [← e.2]
      exact ⟨hinv, by simp; omega⟩
  | popMinStep h e ih =>
    obtain ⟨hi, hlen⟩ := ih
    rename_i b0 b' r
    unfold BinarySearchTree.pop_min at e
    cases hpl : popLeftmost b0.root with
    | none =>
      rw [hpl] at e
      simp only [Prod.mk.injEq] at e
      exact e.2 ▸ ⟨hi, hlen⟩
    | some pr =>
      obtain ⟨⟨v, k, s⟩, t'⟩ := pr
      rw [hpl] at e
      simp only [Prod.mk.injEq] at e
      have hio := popLeftmost_inorder hpl
      have hinv := popLeftmost_inv hi hpl
      have hsz : b0.root.size = t'.size + 1 := by
        rw [size_eq_length_inorder, size_eq_length_inorder, hio]
        simp
      rw [← e.2]
      exact ⟨hinv, by simp; omega⟩
  | popMaxStep h e ih =>
    obtain ⟨hi, hlen⟩ := ih
    rename_i b0 b' r
    unfold BinarySearchTree.pop_max at e
    cases hpr : popRightmost b0.root with
    | none =>
      rw [hpr] at e
      simp only [Prod.mk.injEq] at e
      exact e.2 ▸ ⟨hi, hlen⟩
    | some pr =>
      obtain ⟨⟨v, k, s⟩, t'⟩ := pr
      rw [hpr] at e
      simp only [Prod.mk.injEq] at e
      have hio := popRightmost_inorder hpr
      have hinv := popRightmost_inv hi hpr
      have hsz : b0.root.size = t'.size + 1 := by
        rw [size_eq_length_inorder, size_eq_length_inorder, hio]
        simp
      rw [← e.2]
      exact ⟨hinv, by simp; omega⟩


/-!
Claim theorems.
-/

/-- C2: every tree state reachable through the public operations satisfies
the search-tree ordering invariant: every key in a left subtree is strictly
below the node key and every key in a right subtree is greater or equal. -/
theorem reachable_invariant (b : BinarySearchTree) (h : Reachable b) :
    Inv b.root :=
  (reachable_spec h).1

/-- Witness for C2 on the concrete state reached by inserting 5, 3, 4. -/
theorem reachable_invariant_witness :
    Inv ((((BinarySearchTree.new none).insert 5).insert 3).insert 4).root :=
  reachable_invariant _ (Reachable.insertStep (Reachable.insertStep
    (Reachable.insertStep (Reachable.new none) 5) 3) 4)

/-- C3: a sequence of `n` inserts into a fresh tree always succeeds
(`insert` is a total function of the state) and leaves `length()` equal to
`n`. -/
theorem insert_sequence_length (sortKey : Option (Int → Int))
    (vs : List Int) :
    ((vs.foldl BinarySearchTree.insert (BinarySearchTree.new sortKey)).length).1
      = vs.length := by
  have main : ∀ (ws : List Int) (b : BinarySearchTree),
      (ws.foldl BinarySearchTree.insert b).len = b.len + ws.length := by
    intro ws
    induction ws with
    | nil => intro b; simp
    | cons x xs ih =>
      intro b
      simp only [List.foldl_cons, ih, BinarySearchTree.insert, List.length_cons]
      omega
  simp [BinarySearchTree.length, main, BinarySearchTree.new]

/-- C1: `pop(key)` on a reachable tree: when the key is present it returns a
value stored under exactly the queried key, removes exactly one in-order
element (the one returned), decrements `length()` by one and preserves the
ordering invariant; when the key is absent it raises `KeyNotFound` and the
object is unchanged. -/
theorem pop_removes_one (b : BinarySearchTree) (q : Int) (hR : Reachable b) :
    (q ∈ keys b.root →
      ∃ v b', b.pop q = (.ok v, b') ∧
        b'.len + 1 = b.len ∧
        (∃ l1 l2, inorder b.root = l1 ++ (v, q) :: l2 ∧
          inorder b'.root = l1 ++ l2) ∧
        Inv b'.root) ∧
    (q ∉ keys b.root → b.pop q = (.error .keyNotFound, b)) := by
  obtain ⟨hInv, hlen⟩ := reachable_spec hR
  constructor
  · intro hq
    cases hpf : popFind b.root q with
    | none => exact absurd hpf (popFind_ne_none_of_mem hInv hq)
    | some pr =>
      obtain ⟨v, t'⟩ := pr
      obtain ⟨⟨l1, l2, e1, e2⟩, hinv⟩ := popFind_some hInv hpf
      refine ⟨v, ⟨t', b.len - 1, b.sortKey⟩, ?_, ?_, ⟨l1, l2, e1, e2⟩, hinv⟩
      · simp [BinarySearchTree.pop, hpf]
      · have hsz := size_of_decomp e1 e2
        simp only
        omega
  · intro hq
    simp [BinarySearchTree.pop, popFind_eq_none_of_not_mem hq]

/-- Witness for C1: popping key 3 from the tree holding 5, 3, 8. -/
theorem pop_removes_one_witness :
    ∃ v b', ((((BinarySearchTree.new none).insert 5).insert 3).insert 8).pop 3
        = (.ok v, b') ∧
      b'.len + 1 = ((((BinarySearchTree.new none).insert 5).insert 3).insert 8).len ∧
      (∃ l1 l2,
        inorder ((((BinarySearchTree.new none).insert 5).insert 3).insert 8).root
          = l1 ++ (v, 3) :: l2 ∧
        inorder b'.root = l1 ++ l2) ∧
      Inv b'.root :=
  (pop_removes_one _ 3 (Reachable.insertStep (Reachable.insertStep
    (Reachable.insertStep (Reachable.new none) 5) 3) 8)).1 (by decide)

/-- C4: on a reachable tree the forward traversal lists the stored values in
non-decreasing key order, the reverse traversal in non-increasing key order,
and both traversals have exactly `length()` elements. -/
theorem values_sorted (b : BinarySearchTree) (h : Reachable b) :
    (b.values false).1 = (inorder b.root).map Prod.fst ∧
    (b.values true).1 = ((inorder b.root).map Prod.fst).reverse ∧
    List.Pairwise (· ≤ ·) (keys b.root) ∧
    List.Pairwise (fun a c => c ≤ a) ((keys b.root).reverse) ∧
    (b.values false).1.length = (b.length).1 ∧
    (b.values true).1.length = (b.length).1 := by
  obtain ⟨hInv, hlen⟩ := reachable_spec h
  have hf : (b.values false).1 = (inorder b.root).map Prod.fst := by
    simp [values_fst, outSeq]
  have ht : (b.values true).1 = ((inorder b.root).map Prod.fst).reverse := by
    simp [values_fst, outSeq]
  have hs := sorted_keys hInv
  refine ⟨hf, ht, hs, ?_, ?_, ?_⟩
  · exact List.pairwise_reverse.2 (by simpa [flip] using hs)
  · rw [hf, List.length_map, ← size_eq_length_inorder]
    simp [BinarySearchTree.length, hlen]
  · rw [ht, List.length_reverse, List.length_map, ← size_eq_length_inorder]
    simp [BinarySearchTree.length, hlen]

/-- Witness for C4 on the tree holding 2, 1, 2. -/
theorem values_sorted_witness :
    Reachable (((BinarySearchTree.new none).insert 2).insert 1 |>.insert 2) ∧
    List.Pairwise (· ≤ ·)
      (keys ((((BinarySearchTree.new none).insert 2).insert 1).insert 2).root) ∧
    (((((BinarySearchTree.new none).insert 2).insert 1).insert 2).values
        false).1.length
      = (((((BinarySearchTree.new none).insert 2).insert 1).insert 2).length).1 :=
  ⟨Reachable.insertStep (Reachable.insertStep (Reachable.insertStep
      (Reachable.new none) 2) 1) 2,
    (values_sorted _ (Reachable.insertStep (Reachable.insertStep
      (Reachable.insertStep (Reachable.new none) 2) 1) 2)).2.2.1,
    (values_sorted _ (Reachable.insertStep (Reachable.insertStep
      (Reachable.insertStep (Reachable.new none) 2) 1) 2)).2.2.2.2.1⟩

/-- C5: on a non-empty tree `minimum()` is the first element of the
ascending traversal and `maximum()` its last element. -/
theorem extremes_match_traversal (b : BinarySearchTree)
    (h : b.root ≠ Tree.empty) :
    ∃ v w, (b.minimum).1 = .ok v ∧ (b.values false).1.head? = some v ∧
      (b.maximum).1 = .ok w ∧ (b.values false).1.getLast? = some w := by
  refine ⟨(extremeNodeAux b.root .left).value,
    (extremeNodeAux b.root .right).value, ?_, ?_, ?_, ?_⟩
  · cases ht : b.root with
    | empty => exact absurd ht h
    | node l r v k s => simp [BinarySearchTree.minimum, extremeNode, ht]
  · rw [values_fst]
    simp only [outSeq, if_neg Bool.false_ne_true]
    exact head_inorder h
  · cases ht : b.root with
    | empty => exact absurd ht h
    | node l r v k s => simp [BinarySearchTree.maximum, extremeNode, ht]
  · rw [values_fst]
    simp only [outSeq, if_neg Bool.false_ne_true]
    exact getLast_inorder h

/-- Witness for C5 on the tree holding 7, 2, 9. -/
theorem extremes_match_traversal_witness :
    ∃ v w,
      (((((BinarySearchTree.new none).insert 7).insert 2).insert 9).minimum).1
        = .ok v ∧
      (((((BinarySearchTree.new none).insert 7).insert 2).insert 9).values
          false).1.head? = some v ∧
      (((((BinarySearchTree.new none).insert 7).insert 2).insert 9).maximum).1
        = .ok w ∧
      (((((BinarySearchTree.new none).insert 7).insert 2).insert 9).values
          false).1.getLast? = some w :=
  extremes_match_traversal _ (by decide)

/-- C6: on a reachable tree, `find(key)` for a stored key succeeds and
returns a value stored under exactly the queried key. -/
theorem find_present_key (b : BinarySearchTree) (q : Int)
    (hR : Reachable b) (hq : q ∈ keys b.root) :
    ∃ v, (b.find q).1 = .ok v ∧ (v, q) ∈ inorder b.root := by
  obtain ⟨hInv, h2⟩ := reachable_spec hR
  obtain ⟨n, e, hk, hm⟩ := findAux_present hInv hq
  exact ⟨n.value, by simp [BinarySearchTree.find, e], hm⟩

/-- Witness for C6: finding key 3 in the tree holding 5, 3. -/
theorem find_present_key_witness :
    ∃ v, ((((BinarySearchTree.new none).insert 5).insert 3).find 3).1
        = .ok v ∧
      (v, 3) ∈ inorder (((BinarySearchTree.new none).insert 5).insert 3).root :=
  find_present_key _ 3
    (Reachable.insertStep (Reachable.insertStep (Reachable.new none) 5) 3)
    (by decide)

/-- C7: on a reachable empty tree (`length() == 0`), `minimum`, `maximum`,
`pop_min` and `pop_max` raise `EmptyCollection` and `find` raises
`KeyNotFound` for every key; all of these failures leave the state
untouched (the operations are read-only up to the raise). -/
theorem empty_tree_errors (b : BinarySearchTree) (hR : Reachable b)
    (h0 : (b.length).1 = 0) :
    (b.minimum).1 = .error .emptyCollection ∧
    (b.maximum).1 = .error .emptyCollection ∧
    (b.pop_min).1 = .error .emptyCollection ∧
    (b.pop_max).1 = .error .emptyCollection ∧
    ∀ q : Int, (b.find q).1 = .error .keyNotFound := by
  obtain ⟨hInv, hlen⟩ := reachable_spec hR
  have hsz : b.root.size = 0 := by
    have h1 : b.len = 0 := h0
    omega
  have hroot : b.root = Tree.empty := by
    cases ht : b.root with
    | empty => rfl
    | node l r v k s => rw [ht] at hsz; simp [Tree.size] at hsz
  refine ⟨?_, ?_, ?_, ?_, ?_⟩ <;>
    simp [BinarySearchTree.minimum, BinarySearchTree.maximum,
      BinarySearchTree.pop_min, BinarySearchTree.pop_max,
      BinarySearchTree.find, extremeNode, findAux, popLeftmost,
      popRightmost, hroot]

/-- Witness for C7 on the freshly constructed tree. -/
theorem empty_tree_errors_witness :
    ((BinarySearchTree.new none).length).1 = 0 ∧
    ((BinarySearchTree.new none).minimum).1 = .error .emptyCollection ∧
    ((BinarySearchTree.new none).find 42).1 = .error .keyNotFound :=
  ⟨rfl, (empty_tree_errors _ (Reachable.new none) rfl).1,
    (empty_tree_errors _ (Reachable.new none) rfl).2.2.2.2 42⟩

/-- C8 (refuting evaluation): `_pprint` annotates its node line whenever the
node stores a separate key (`len(node) > 3`), never consulting `show_key` —
so with `show_key=False` the single-node tree built with the key function
`x + 10` still renders the line `-1 (key=11)`, contradicting the claim that
`show_key=False` suppresses all key annotations. -/
theorem pprint_show_key_ignored :
    ((BinarySearchTree.new (some (fun v => v + 10))).insert 1).root
      = Tree.node Tree.empty Tree.empty 1 11 true ∧
    (((BinarySearchTree.new (some (fun v => v + 10))).insert 1).pprint
      10 false false).1 = "-1 (key=11)" :=
  ⟨rfl, by decide⟩

/-- C9: the reverse traversal is exactly the reversal of the forward
traversal of the same state, duplicates included. -/
theorem values_reverse_relation (b : BinarySearchTree) :
    (b.values true).1 = ((b.values false).1).reverse := by
  simp [values_fst, outSeq]

/-- C10: the read-only operations `find`, `minimum`, `maximum`, `values`,
`__len__` and `pprint` return the object state unchanged, whether they
produce a value or an error. -/
theorem readonly_ops_frame (b : BinarySearchTree) (q : Int) (rev : Bool)
    (d : Nat) (fr sk : Bool) :
    (b.find q).2 = b ∧ (b.minimum).2 = b ∧ (b.maximum).2 = b ∧
    (b.values rev).2 = b ∧ (b.length).2 = b ∧ (b.pprint d fr sk).2 = b := by
  refine ⟨?_, ?_, ?_, rfl, rfl, ?_⟩
  · cases hf : findAux b.root q <;> simp [BinarySearchTree.find, hf]
  · cases he : extremeNode b.root .left <;>
      simp [BinarySearchTree.minimum, he]
  · cases he : extremeNode b.root .right <;>
      simp [BinarySearchTree.maximum, he]
  · cases fr <;> simp [BinarySearchTree.pprint]

end Race
